import Mathlib

/-!
Verification of the Collection subsystem of the ledb embedded document
database (src/ledb/src/collection.rs), against its natural-language
specification.

Shallow embedding conventions:

* `Primary` (Rust u64) is modelled as `Nat`; the spec reserves 0 as
  "absent" and declares identifier overflow out of scope (spec section 4.7),
  so no wrap-around modelling is required by any statement below.
* The lmdb primary database is an ordered key-value map; it is modelled as
  an association list strictly sorted by key, mirroring that lmdb cursors
  enumerate keys in ascending numeric order (the database is created with
  keys sorted by the native order of `Unaligned<Primary>`).
* Document payloads are opaque to the collection code; they are a type
  parameter `V`.  `RawDocument` is an optional primary id plus a payload
  (spec section 3).
* A write transaction is modelled as a draft state plus a committed flag
  (`WriteTxn`).  Dropping a write transaction without calling commit aborts
  it and discards the draft (spec section 5: "aborting a transaction (by
  dropping without commit) is the only way to cancel"); `WriteTxn.close`
  applies exactly that rule.  Several source functions return without
  calling `txn.commit()`; they are translated faithfully, i.e. their
  transaction outcome keeps `committed = false`.
* The out-of-scope collaborators (Index, Filter/Selection, Modify, codec)
  are modelled from their contracts in spec sections 3 and 6; each such
  definition carries a doc comment starting with "Modelled from the spec".
  Codec and raw storage-level failures are out of scope, so decode of a
  stored document never fails in the model.
-/

namespace Ledb

/-- Primary identifier of a document: unsigned 64-bit in the source,
modelled as `Nat` (identifier overflow is declared out of scope by the
spec, section 4.7). -/
abbrev Primary := Nat

/-- Index kinds (spec section 3: IndexKind is Unique or NonUnique). -/
inductive IndexKind where
  | Unique
  | NonUnique
  deriving DecidableEq, Repr

/-- Key type tags of an index (spec section 3). -/
inductive KeyType where
  | Int
  | UInt
  | Float
  | String
  | Bool
  deriving DecidableEq, Repr

/-- Error kinds reachable in the modelled code paths (spec section 7). -/
inductive DBError where
  | MissingIdentifier
  | StorageError
  deriving DecidableEq, Repr

/-- Modelled from the spec (section 3): a RawDocument is an opaque
structured value plus an optional Primary.  `with_id` replaces the id,
`req_id` yields the embedded Primary or fails with MissingIdentifier,
`into_inner` yields the payload value. -/
structure RawDocument (V : Type) where
  id : Option Primary
  val : V
  deriving DecidableEq, Repr

/-- Modelled from the spec: `RawDocument::with_id` sets the primary id. -/
def RawDocument.with_id {V : Type} (d : RawDocument V) (i : Primary) : RawDocument V :=
  { d with id := some i }

/-- Modelled from the spec: `RawDocument::req_id` returns the embedded
Primary, or the MissingIdentifier error when the document carries none. -/
def RawDocument.req_id {V : Type} (d : RawDocument V) : Except DBError Primary :=
  match d.id with
  | some i => .ok i
  | none => .error .MissingIdentifier

/-- Modelled from the spec (sections 3 and 6): an Index is identified by its
field path, kind and key type; its storage is modelled as the list of
(primary, document) entries it currently reflects, which is what
`update_index` diff-maintains. Serial assignment for storage naming is
omitted: it only derives the physical database name. -/
structure Index (V : Type) where
  path : String
  kind : IndexKind
  key : KeyType
  entries : List (Primary × RawDocument V)
  deriving DecidableEq, Repr

/-- Modelled from the spec: `Index::purge` clears the index storage. -/
def Index.purge {V : Type} (i : Index V) : Index V :=
  { i with entries := [] }

/-- Modelled from the spec (section 6): `Index::update_index(access, old?,
new?)` diff-updates the index: entries derived from the old document are
removed, entries derived from the new document are inserted. -/
def Index.update_index {V : Type} (i : Index V)
    (old new : Option (RawDocument V)) : Index V :=
  let removed :=
    match old with
    | some d => i.entries.filter (fun e => some e.1 ≠ d.id)
    | none => i.entries
  let added :=
    match new with
    | some d =>
      match d.id with
      | some k => removed ++ [(k, d)]
      | none => removed
    | none => removed
  { i with entries := added }

/-! ### The ordered primary map

lmdb keeps keys sorted; the primary database therefore behaves as an
ordered map from `Primary` to stored document bytes.  It is modelled as an
association list strictly sorted by key. -/

/-- Lookup in the primary map (`access.get`), as an lmdb point read. -/
def mapGet {V : Type} (m : List (Primary × RawDocument V)) (k : Primary) :
    Option (RawDocument V) :=
  match m with
  | [] => none
  | e :: rest => if e.1 = k then some e.2 else mapGet rest k

/-- Write in the primary map (`access.put` with empty flags): replaces the
value at the key or inserts the key at its sorted position. -/
def mapPut {V : Type} (m : List (Primary × RawDocument V)) (k : Primary)
    (v : RawDocument V) : List (Primary × RawDocument V) :=
  match m with
  | [] => [(k, v)]
  | e :: rest =>
    if k < e.1 then (k, v) :: e :: rest
    else if k = e.1 then (k, v) :: rest
    else e :: mapPut rest k v

/-- Key deletion in the primary map (`access.del_key`). -/
def mapDel {V : Type} (m : List (Primary × RawDocument V)) (k : Primary) :
    List (Primary × RawDocument V) :=
  m.filter (fun e => e.1 ≠ k)

/-- Key of the last cursor entry of the primary map, or 0 when the map is
empty (the computation performed by `Collection::last_id`). -/
def mapLastKey {V : Type} (m : List (Primary × RawDocument V)) : Primary :=
  match m.getLast? with
  | some e => e.1
  | none => 0

/-- State of one collection: the primary map, the in-memory index list
(the `RwLock<Vec<Index>>`), and the set of index storages marked for
physical deletion in the environment (the effect of `Index::to_delete`). -/
structure Coll (V : Type) where
  primary : List (Primary × RawDocument V)
  indexes : List (Index V)
  marked : List (Index V)
  deriving DecidableEq, Repr

/-- Well-formedness of the primary map: keys strictly sorted ascending,
which is the lmdb ordered-map invariant. -/
def Coll.wf {V : Type} (c : Coll V) : Prop :=
  List.Sorted (· < ·) (c.primary.map Prod.fst)

instance {V : Type} (c : Coll V) : Decidable c.wf := by
  unfold Coll.wf; infer_instance

/-- A write transaction: the draft collection state as modified inside the
transaction, and whether `commit` has been called.  Dropping the
transaction without commit aborts it (spec section 5). -/
structure WriteTxn (V : Type) where
  draft : Coll V
  committed : Bool
  deriving DecidableEq, Repr

/-- Open a write transaction (`WriteTransaction::new`). -/
def WriteTxn.new {V : Type} (c : Coll V) : WriteTxn V :=
  { draft := c, committed := false }

/-- Commit the transaction (`txn.commit()`). -/
def WriteTxn.commit {V : Type} (t : WriteTxn V) : WriteTxn V :=
  { t with committed := true }

/-- Drop the transaction: the draft becomes visible only if the
transaction was committed; otherwise the transaction aborts and the
pre-state survives. -/
def WriteTxn.close {V : Type} (t : WriteTxn V) (pre : Coll V) : Coll V :=
  if t.committed then t.draft else pre

/-! ### Mutations (collection.rs) -/

/-- Coll::purge, transaction outcome (collection.rs lines 336-348): opens a
write transaction, calls `purge` on every index, then clears the primary
database.  The source returns `access.clear_db(&handle.db).wrap_err()`
without ever calling `txn.commit()`, so the transaction outcome keeps
`committed = false`. -/
def Coll.purgeTxn {V : Type} (c : Coll V) : WriteTxn V :=
  let t := WriteTxn.new c
  let t := { t with draft := { t.draft with indexes := t.draft.indexes.map Index.purge } }
  let t := { t with draft := { t.draft with primary := [] } }
  t

/-- Coll::purge, visible result: the write transaction is dropped at the
end of the function; since it was never committed, it aborts. -/
def Coll.purge {V : Type} (c : Coll V) : Coll V :=
  (c.purgeTxn).close c

/-- One iteration of the loop in Coll::load (collection.rs lines 311-327):
require the document id, put the document bytes at that id, diff-update
every index with `(None, Some(doc))`. -/
def load_step {V : Type} (st : WriteTxn V × Nat) (doc : RawDocument V) :
    Except DBError (WriteTxn V × Nat) :=
  match doc.req_id with
  | .error e => .error e
  | .ok id =>
    let t := st.1
    let t := { t with draft := { t.draft with primary := mapPut t.draft.primary id doc } }
    let t := { t with draft := { t.draft with
      indexes := t.draft.indexes.map (fun i => i.update_index none (some doc)) } }
    .ok (t, st.2 + 1)

/-- Coll::load (collection.rs lines 298-332): `purge()` first, then a fresh
write transaction putting each input document at its own Primary and
diff-updating the indexes with `(None, Some(doc))`; that second transaction
is committed (line 329).  On a `req_id` failure the error propagates and
the uncommitted transaction aborts. -/
def Coll.load {V : Type} (c : Coll V) (docs : List (RawDocument V)) :
    Coll V × Except DBError Nat :=
  let afterPurge := c.purge
  match docs.foldlM load_step (WriteTxn.new afterPurge, 0) with
  | .ok (t, count) => ((t.commit).close afterPurge, .ok count)
  | .error e => (afterPurge, .error e)

/-- Coll::put_raw, transaction outcome (collection.rs lines 391-432):
`req_id` is checked before the transaction is opened; then the old document
at that id is read (and given the key as its id), the new bytes are
written, every index is diff-updated with `(old?, Some(doc))`, and the
transaction is committed (line 429). -/
def Coll.put_raw_run {V : Type} (c : Coll V) (doc : RawDocument V) :
    Coll V × Except DBError Unit × Option (WriteTxn V) :=
  match doc.id with
  | none => (c, .error .MissingIdentifier, none)
  | some id =>
    let t := WriteTxn.new c
    let old := (mapGet c.primary id).map (fun d => d.with_id id)
    let t := { t with draft := { t.draft with primary := mapPut t.draft.primary id doc } }
    let t := { t with draft := { t.draft with
      indexes := t.draft.indexes.map (fun (i : Index V) => i.update_index old (some doc)) } }
    let t := t.commit
    (t.close c, .ok (), some t)

/-- Coll::put_raw, visible result. -/
def Coll.put_raw {V : Type} (c : Coll V) (doc : RawDocument V) :
    Coll V × Except DBError Unit :=
  ((c.put_raw_run doc).1, (c.put_raw_run doc).2.1)

/-- Coll::put (collection.rs lines 387-389): converts the document and
delegates to put_raw. -/
def Coll.put {V : Type} (c : Coll V) (doc : RawDocument V) :
    Coll V × Except DBError Unit :=
  c.put_raw doc

/-- Coll::last_id (collection.rs lines 484-496): the key of the last cursor
entry of the primary map, or 0 when the collection is empty. -/
def Coll.last_id {V : Type} (c : Coll V) : Primary :=
  mapLastKey c.primary

/-- Coll::new_id (collection.rs lines 499-501): `last_id() + 1`. -/
def Coll.new_id {V : Type} (c : Coll V) : Primary :=
  c.last_id + 1

/-- Coll::insert (collection.rs lines 106-112): computes a new id and puts
the document with that id; returns the id. -/
def Coll.insert {V : Type} (c : Coll V) (doc : RawDocument V) :
    Coll V × Except DBError Primary :=
  let id := c.new_id
  match c.put_raw (doc.with_id id) with
  | (c2, .ok _) => (c2, .ok id)
  | (c2, .error e) => (c2, .error e)

/-- Coll::delete, transaction outcome (collection.rs lines 435-461): opens
a write transaction; when the document is absent it returns false early and
the (write-free) transaction is dropped uncommitted; otherwise it reads the
old document, deletes the key, diff-updates every index with
`(Some(old), None)` and commits. -/
def Coll.delete_run {V : Type} (c : Coll V) (id : Primary) :
    Coll V × Bool × WriteTxn V :=
  let t := WriteTxn.new c
  match mapGet c.primary id with
  | none => (t.close c, false, t)
  | some d =>
    let old := d.with_id id
    let t := { t with draft := { t.draft with primary := mapDel t.draft.primary id } }
    let t := { t with draft := { t.draft with
      indexes := t.draft.indexes.map (fun (i : Index V) => i.update_index (some old) none) } }
    let t := t.commit
    (t.close c, true, t)

/-- Coll::delete, visible result. -/
def Coll.delete {V : Type} (c : Coll V) (id : Primary) : Coll V × Bool :=
  ((c.delete_run id).1, (c.delete_run id).2.1)

/-! ### Queries (collection.rs) -/

/-- Order kinds; the source derives `Default` with `Asc` as default. -/
inductive OrderKind where
  | Asc
  | Desc
  deriving DecidableEq, Repr

/-- Modelled from the spec (section 3): a Selection is an id set plus an
inverted flag.  The id set is a HashSet in the source; it is modelled as a
list of ids (its iteration order is arbitrary and never relied upon). -/
structure Selection where
  ids : List Primary
  inv : Bool
  deriving DecidableEq, Repr

/-- Modelled from the spec (section 6): `Selection::has` is membership
after inversion. -/
def Selection.has (s : Selection) (id : Primary) : Bool :=
  if s.inv then !(s.ids.contains id) else s.ids.contains id

/-- PrimaryIterator collected to a list (collection.rs lines 754-778): the
cursor enumerates the ordered primary map with first/next for ascending
order and last/prev for descending order, yielding the keys. -/
def Coll.primary_iter {V : Type} (c : Coll V) (order : OrderKind) : List Primary :=
  match order with
  | .Asc => c.primary.map Prod.fst
  | .Desc => (c.primary.map Prod.fst).reverse

/-- A Filter is modelled from the spec (section 6) by its evaluation:
applied to a read snapshot of the collection it yields a Selection. -/
abbrev DocFilter (V : Type) := Coll V → Selection

/-- Id production of Coll::find for the `Order::Primary` rows of the
dispatch table (collection.rs lines 135-161): with no filter, the collected
PrimaryIterator; with a filter, apply it, then either filter the
PrimaryIterator through the inverted selection, or sort the selection ids
with `order_primary_asc` (`a.cmp(b)`) or `order_primary_desc` (`b.cmp(a)`)
(collection.rs lines 837-845).  The sort is modelled by a correct sorting
algorithm, which agrees with `sort_unstable_by` because the comparators are
total orders.  The produced ids are then materialized one document each by
DocumentsIterator. -/
def Coll.find_primary {V : Type} (c : Coll V) (filter : Option (DocFilter V))
    (order : OrderKind) : List Primary :=
  match filter with
  | none => c.primary_iter order
  | some f =>
    let sel := f c
    if sel.inv then
      (c.primary_iter order).filter (fun id => sel.has id)
    else
      match order with
      | .Asc => List.insertionSort (fun a b => a ≤ b) sel.ids
      | .Desc => List.insertionSort (fun a b => b ≤ a) sel.ids

/-- Coll::find_ids (collection.rs lines 185-203): no filter scans the full
PrimaryIterator; a non-inverted selection is returned directly; an inverted
selection filters the full PrimaryIterator through `Selection::has`.  The
HashSet result is modelled as the produced id list. -/
def Coll.find_ids {V : Type} (c : Coll V) (filter : Option (DocFilter V)) :
    List Primary :=
  match filter with
  | some f =>
    let sel := f c
    if sel.inv then
      (c.primary_iter .Asc).filter (fun id => sel.has id)
    else
      sel.ids
  | none => c.primary_iter .Asc

/-- The loop of Coll::update (collection.rs lines 221-240): for each found
id, read the old document (giving it the key as id), apply the modifier to
its inner value, re-wrap the result `.with_id(id)`, write it back and
diff-update every index with `(Some(old), Some(new))`.  A missing id
surfaces as a storage error aborting the transaction. -/
def update_loop {V : Type} (modify : V → V) :
    WriteTxn V → Nat → List Primary → Except DBError (WriteTxn V × Nat)
  | t, count, [] => .ok (t, count)
  | t, count, id :: rest =>
    match mapGet t.draft.primary id with
    | none => .error .StorageError
    | some d =>
      let old := d.with_id id
      let newd : RawDocument V := { id := some id, val := modify old.val }
      let t := { t with draft := { t.draft with primary := mapPut t.draft.primary id newd } }
      let t := { t with draft := { t.draft with
        indexes := t.draft.indexes.map (fun i => i.update_index (some old) (some newd)) } }
      update_loop modify t (count + 1) rest

/-- Coll::update (collection.rs lines 211-247): two-phase — snapshot the
found ids with find_ids, then run the write loop in a single write
transaction and commit it (line 243). -/
def Coll.update {V : Type} (c : Coll V) (filter : Option (DocFilter V))
    (modify : V → V) : Coll V × Except DBError Nat :=
  let found := c.find_ids filter
  match update_loop modify (WriteTxn.new c) 0 found with
  | .ok (t, count) => ((t.commit).close c, .ok count)
  | .error e => (c, .error e)

/-! ### Index management (collection.rs) -/

/-- Coll::get_index (collection.rs lines 646-657): first index whose path
matches. -/
def Coll.get_index {V : Type} (c : Coll V) (path : String) : Option (Index V) :=
  c.indexes.find? (fun i => i.path = path)

/-- Coll::has_index (collection.rs lines 552-560): any index whose path
matches. -/
def Coll.has_index {V : Type} (c : Coll V) (path : String) : Bool :=
  c.indexes.any (fun i => i.path = path)

/-- Position-then-remove on the index list, mirroring
`indexes.iter().position(..)` followed by `indexes.remove(pos)` in
Coll::drop_index: returns the first index whose path matches together with
the list without it. -/
def removeByPath {V : Type} (l : List (Index V)) (path : String) :
    Option (Index V × List (Index V)) :=
  match l with
  | [] => none
  | i :: rest =>
    if i.path = path then some (i, rest)
    else (removeByPath rest path).map (fun p => (p.1, i :: p.2))

/-- Coll::drop_index, with its transaction outcome (collection.rs lines
624-644): when an index for the path exists it is removed from the
in-memory list (immediately visible; the RwLock write is not
transactional), then a write transaction is opened in which
`index.to_delete(&mut access)` marks the removed index storage for physical
deletion; the source returns `true` without ever calling `txn.commit()`, so
that transaction aborts.  When no index matches, `false` and no change. -/
def Coll.drop_index_run {V : Type} (c : Coll V) (path : String) :
    Coll V × Bool × Option (WriteTxn V) :=
  match removeByPath c.indexes path with
  | some (index, rest) =>
    let c2 := { c with indexes := rest }
    let t := WriteTxn.new c2
    let t := { t with draft := { t.draft with marked := t.draft.marked ++ [index] } }
    (t.close c2, true, some t)
  | none => (c, false, none)

/-- Coll::drop_index, visible result. -/
def Coll.drop_index {V : Type} (c : Coll V) (path : String) : Coll V × Bool :=
  ((c.drop_index_run path).1, (c.drop_index_run path).2.1)

/-- The backfill loop of Coll::create_index (collection.rs lines 599-611):
every (key, bytes) entry of the primary map, in primary ascending order, is
decoded, given the key as its id, and fed to
`index.update_index(None, Some(&doc))`; the backfill transaction is
committed (line 613). -/
def backfill {V : Type} (i : Index V)
    (primary : List (Primary × RawDocument V)) : Index V :=
  primary.foldl (fun i e => i.update_index none (some (e.2.with_id e.1))) i

/-- Coll::create_index (collection.rs lines 563-621): rejected when an
index for the path is already alive; otherwise a fresh empty index is
created, backfilled from the whole primary map in one committed write
transaction, and appended to the index list. -/
def Coll.create_index {V : Type} (c : Coll V) (path : String)
    (kind : IndexKind) (key : KeyType) : Coll V × Bool :=
  if c.indexes.any (fun i => i.path = path) then (c, false)
  else
    let index := backfill { path := path, kind := kind, key := key, entries := [] } c.primary
    ({ c with indexes := c.indexes ++ [index] }, true)

/-- Coll::ensure_index (collection.rs lines 534-549): an existing index
with matching kind and key is a no-op returning false; a mismatching one is
dropped first; then create_index runs. -/
def Coll.ensure_index {V : Type} (c : Coll V) (path : String)
    (kind : IndexKind) (key : KeyType) : Coll V × Bool :=
  match c.get_index path with
  | some index =>
    if index.kind = kind ∧ index.key = key then (c, false)
    else
      let c2 := (c.drop_index path).1
      c2.create_index path kind key
  | none => c.create_index path kind key

/-- A key field triple as consumed by set_indexes. -/
structure KeyField where
  path : String
  kind : IndexKind
  key : KeyType
  deriving DecidableEq, Repr

/-- Coll::set_indexes (collection.rs lines 514-524): calls ensure_index for
each (path, kind, key) of the input, in order. -/
def Coll.set_indexes {V : Type} (c : Coll V) (fields : List KeyField) : Coll V :=
  fields.foldl (fun c f => (c.ensure_index f.path f.kind f.key).1) c

/-! ### Helper lemmas about the ordered map model -/

theorem mapGet_mapPut_self {V : Type} (m : List (Primary × RawDocument V))
    (k : Primary) (v : RawDocument V) : mapGet (mapPut m k v) k = some v := by
  induction m with
  | nil => simp [mapPut, mapGet]
  | cons e rest ih =>
    by_cases h1 : k < e.1
    · simp [mapPut, h1, mapGet]
    · by_cases h2 : k = e.1
      · simp [mapPut, h1, h2, mapGet]
      · have hne : ¬ e.1 = k := fun h => h2 h.symm
        simp [mapPut, h1, h2, mapGet, hne, ih]

theorem mapGet_mapPut_ne {V : Type} (m : List (Primary × RawDocument V))
    {j k : Primary} (v : RawDocument V) (h : j ≠ k) :
    mapGet (mapPut m k v) j = mapGet m j := by
  have hkj : ¬ k = j := fun hh => h hh.symm
  induction m with
  | nil => simp [mapPut, mapGet, hkj]
  | cons e rest ih =>
    by_cases h1 : k < e.1
    · simp [mapPut, h1, mapGet, hkj]
    · by_cases h2 : k = e.1
      · have he : ¬ e.1 = j := h2 ▸ hkj
        simp [mapPut, h1, h2, mapGet, hkj, he]
      · simp only [mapPut, if_neg h1, if_neg h2, mapGet]
        by_cases h3 : e.1 = j
        · simp [h3]
        · simp [h3, ih]

theorem mem_map_fst_mapPut {V : Type} (m : List (Primary × RawDocument V))
    (k j : Primary) (v : RawDocument V) :
    j ∈ (mapPut m k v).map Prod.fst ↔ j = k ∨ j ∈ m.map Prod.fst := by
  induction m with
  | nil => simp [mapPut]
  | cons e rest ih =>
    by_cases h1 : k < e.1
    · simp only [mapPut, if_pos h1, List.map_cons, List.mem_cons]
    · by_cases h2 : k = e.1
      · simp only [mapPut, if_neg h1, if_pos h2, List.map_cons, List.mem_cons]
        rw [h2]
        tauto
      · simp only [mapPut, if_neg h1, if_neg h2, List.map_cons, List.mem_cons, ih]
        tauto

theorem map_fst_mapPut_of_mem {V : Type} {m : List (Primary × RawDocument V)}
    {k : Primary} (v : RawDocument V)
    (hs : List.Sorted (· < ·) (m.map Prod.fst)) (hk : k ∈ m.map Prod.fst) :
    (mapPut m k v).map Prod.fst = m.map Prod.fst := by
  induction m with
  | nil => simp at hk
  | cons e rest ih =>
    simp only [List.map_cons, List.sorted_cons] at hs
    simp only [List.map_cons, List.mem_cons] at hk
    rcases hk with hk | hk
    · subst hk
      simp [mapPut, lt_irrefl]
    · have hlt : e.1 < k := hs.1 k hk
      have h1 : ¬ k < e.1 := Nat.lt_asymm hlt
      have h2 : ¬ k = e.1 := ne_of_gt hlt
      simp [mapPut, h1, h2, ih hs.2 hk]

theorem sorted_map_fst_mapPut {V : Type} {m : List (Primary × RawDocument V)}
    (k : Primary) (v : RawDocument V)
    (hs : List.Sorted (· < ·) (m.map Prod.fst)) :
    List.Sorted (· < ·) ((mapPut m k v).map Prod.fst) := by
  induction m with
  | nil => simp [mapPut]
  | cons e rest ih =>
    simp only [List.map_cons, List.sorted_cons] at hs
    by_cases h1 : k < e.1
    · simp only [mapPut, if_pos h1, List.map_cons, List.sorted_cons]
      refine ⟨?_, hs.1, hs.2⟩
      intro b hb
      simp only [List.mem_cons] at hb
      rcases hb with hb | hb
      · exact hb ▸ h1
      · exact lt_trans h1 (hs.1 b hb)
    · by_cases h2 : k = e.1
      · simp only [mapPut, if_neg h1, if_pos h2, List.map_cons, List.sorted_cons]
        refine ⟨fun b hb => ?_, hs.2⟩
        rw [h2]
        exact hs.1 b hb
      · have hek : e.1 < k := lt_of_le_of_ne (Nat.le_of_not_lt h1) (fun hh => h2 hh.symm)
        simp only [mapPut, if_neg h1, if_neg h2, List.map_cons, List.sorted_cons]
        refine ⟨?_, ih hs.2⟩
        intro b hb
        rw [mem_map_fst_mapPut] at hb
        rcases hb with hb | hb
        · exact hb ▸ hek
        · exact hs.1 b hb

theorem mapPut_of_forall_lt {V : Type} {m : List (Primary × RawDocument V)}
    {k : Primary} (v : RawDocument V)
    (h : ∀ x ∈ m.map Prod.fst, x < k) : mapPut m k v = m ++ [(k, v)] := by
  induction m with
  | nil => simp [mapPut]
  | cons e rest ih =>
    have he : e.1 < k := h e.1 (by simp)
    have h1 : ¬ k < e.1 := Nat.lt_asymm he
    have h2 : ¬ k = e.1 := ne_of_gt he
    simp only [mapPut, if_neg h1, if_neg h2, List.cons_append, List.cons.injEq, true_and]
    exact ih (fun x hx => h x (by simp [hx]))

theorem mapLastKey_concat {V : Type} (m : List (Primary × RawDocument V))
    (k : Primary) (v : RawDocument V) : mapLastKey (m ++ [(k, v)]) = k := by
  simp [mapLastKey, List.getLast?_concat]

theorem mapLastKey_cons_cons {V : Type} (e f : Primary × RawDocument V)
    (rest : List (Primary × RawDocument V)) :
    mapLastKey (e :: f :: rest) = mapLastKey (f :: rest) := by
  simp [mapLastKey, List.getLast?_cons_cons]

theorem mapLastKey_mem {V : Type} :
    ∀ (m : List (Primary × RawDocument V)), m ≠ [] → mapLastKey m ∈ m.map Prod.fst
  | [], h => absurd rfl h
  | [e], _ => by simp [mapLastKey]
  | e :: f :: rest, _ => by
    rw [mapLastKey_cons_cons]
    have hmem := mapLastKey_mem (f :: rest) (by simp)
    simp only [List.map_cons, List.mem_cons] at hmem ⊢
    tauto

theorem le_mapLastKey_of_mem {V : Type} :
    ∀ (m : List (Primary × RawDocument V)),
      List.Sorted (· < ·) (m.map Prod.fst) →
      ∀ k : Primary, k ∈ m.map Prod.fst → k ≤ mapLastKey m
  | [], _, k, hk => by simp at hk
  | [e], _, k, hk => by
    simp only [List.map_cons, List.map_nil, List.mem_cons, List.not_mem_nil,
      or_false] at hk
    simp [mapLastKey, hk]
  | e :: f :: rest, hs, k, hk => by
    rw [List.map_cons, List.sorted_cons] at hs
    rw [List.map_cons] at hk
    rw [mapLastKey_cons_cons]
    rcases List.mem_cons.mp hk with hk1 | hk2
    · have hmem := mapLastKey_mem (f :: rest) (by simp)
      have hlt : e.1 < mapLastKey (f :: rest) := hs.1 _ hmem
      exact hk1 ▸ le_of_lt hlt
    · exact le_mapLastKey_of_mem (f :: rest) hs.2 k hk2

theorem mapGet_eq_none_iff {V : Type} (m : List (Primary × RawDocument V))
    (k : Primary) : mapGet m k = none ↔ k ∉ m.map Prod.fst := by
  induction m with
  | nil => simp [mapGet]
  | cons e rest ih =>
    by_cases h : e.1 = k
    · simp [mapGet, h]
    · rw [List.map_cons]
      simp only [mapGet, if_neg h, List.mem_cons, ih]
      constructor
      · intro hnot hmem
        rcases hmem with hm | hm
        · exact h hm.symm
        · exact hnot hm
      · intro hnot hm
        exact hnot (Or.inr hm)

theorem mapGet_isSome_of_mem {V : Type} {m : List (Primary × RawDocument V)}
    {k : Primary} (hk : k ∈ m.map Prod.fst) : ∃ d, mapGet m k = some d := by
  rcases h : mapGet m k with _ | d
  · rw [mapGet_eq_none_iff] at h
    exact absurd hk h
  · exact ⟨d, rfl⟩

theorem mapGet_mapDel_self {V : Type} (m : List (Primary × RawDocument V))
    (k : Primary) : mapGet (mapDel m k) k = none := by
  induction m with
  | nil => simp [mapDel, mapGet]
  | cons e rest ih =>
    by_cases h : e.1 = k
    · simpa [mapDel, h] using ih
    · simpa [mapDel, mapGet, h] using ih

/-! ### Claim C1 -/

/-- C1: the claim states that after purge() the collection contains no
documents and every secondary index is empty, all in a single committed
write transaction.  The code clears the primary map and every index inside
the draft of its single write transaction, but never calls txn.commit(),
so the transaction aborts and the visible collection is unchanged: purge
is the identity on the visible state.  This contradicts the claim (and the
docstring of purge). -/
theorem purge_clears_draft_but_never_commits {V : Type} (c : Coll V) :
    (c.purgeTxn).draft.primary = [] ∧
    ((c.purgeTxn).draft.indexes.all fun i => i.entries.isEmpty) = true ∧
    (c.purgeTxn).committed = false ∧
    c.purge = c := by
  refine ⟨rfl, ?_, rfl, rfl⟩
  simp [Coll.purgeTxn, Index.purge, WriteTxn.new, List.all_eq_true]

/-! ### Claim C2 -/

/-- C2: the claim states that after load(docs) the set of present ids
equals exactly the Primaries of the input documents.  Because purge()
never commits its transaction (see C1), documents present before the call
survive load: loading the single document with id 2 into a collection
holding id 1 leaves both ids present, although the returned count is the
number of input documents (1). -/
theorem load_keeps_preexisting_ids :
    ((Coll.mk [(1, ⟨some 1, (10 : Nat)⟩)] [] []).load
        [⟨some 2, 20⟩]).1.primary.map Prod.fst = [1, 2] ∧
    ((Coll.mk [(1, ⟨some 1, (10 : Nat)⟩)] [] []).load [⟨some 2, 20⟩]).2 = .ok 1 :=
  ⟨rfl, rfl⟩

/-! ### Claim C3 -/

/-- C3 counterexample: ids freed by deleting the document with the
greatest primary id ARE reused.  Insert returns 1 then 2; after delete(2),
last_id is recomputed from the map as 1, so the next insert returns 2
again — not strictly greater than every previously returned id. -/
theorem insert_reuses_deleted_max_id :
    (((Coll.mk ([] : List (Primary × RawDocument Nat)) [] []).insert
        ⟨none, 10⟩).1.insert ⟨none, 20⟩).2 = .ok 2 ∧
    (((((Coll.mk ([] : List (Primary × RawDocument Nat)) [] []).insert
        ⟨none, 10⟩).1.insert ⟨none, 20⟩).1.delete 2).1.insert ⟨none, 30⟩).2 = .ok 2 :=
  ⟨rfl, rfl⟩

/-- C3 (amended): insert returns last_id + 1, which is strictly greater
than every id currently present in the collection; the inserted id becomes
the new last_id, so an immediately following insert returns a strictly
greater id.  (Without intervening deletion of the greatest id this chains
into strict monotonicity; ids freed by deleting the greatest document can
be reused, as the counterexample shows.) -/
theorem insert_id_monotone {V : Type} (c : Coll V) (doc doc2 : RawDocument V)
    (hwf : c.wf) :
    (c.insert doc).2 = .ok (c.last_id + 1) ∧
    (∀ k ∈ c.primary.map Prod.fst, k < c.last_id + 1) ∧
    (c.insert doc).1.last_id = c.last_id + 1 ∧
    ((c.insert doc).1.insert doc2).2 = .ok (c.last_id + 2) := by
  have hbound : ∀ k ∈ c.primary.map Prod.fst, k < c.last_id + 1 := by
    intro k hk
    exact Nat.lt_succ_of_le (le_mapLastKey_of_mem c.primary hwf k hk)
  have happend : mapPut c.primary c.new_id (doc.with_id c.new_id)
      = c.primary ++ [(c.new_id, doc.with_id c.new_id)] :=
    mapPut_of_forall_lt (doc.with_id c.new_id) hbound
  have h1 : (c.insert doc).1.primary
      = c.primary ++ [(c.new_id, doc.with_id c.new_id)] := happend
  have h3 : (c.insert doc).1.last_id = c.last_id + 1 := by
    show mapLastKey (c.insert doc).1.primary = c.last_id + 1
    rw [h1, mapLastKey_concat]
    rfl
  have h4 : ((c.insert doc).1.insert doc2).2
      = .ok ((c.insert doc).1.last_id + 1) := rfl
  refine ⟨rfl, hbound, h3, ?_⟩
  rw [h4, h3]

/-- Witness for the amended C3 theorem at a concrete input. -/
theorem insert_id_monotone_witness :
    (Coll.mk [(1, ⟨some 1, (10 : Nat)⟩)] [] []).wf ∧
    (((Coll.mk [(1, ⟨some 1, (10 : Nat)⟩)] [] []).insert ⟨none, 20⟩).2
        = .ok ((Coll.mk [(1, ⟨some 1, (10 : Nat)⟩)] [] []).last_id + 1) ∧
     (∀ k ∈ (Coll.mk [(1, ⟨some 1, (10 : Nat)⟩)] [] []).primary.map Prod.fst,
        k < (Coll.mk [(1, ⟨some 1, (10 : Nat)⟩)] [] []).last_id + 1) ∧
     ((Coll.mk [(1, ⟨some 1, (10 : Nat)⟩)] [] []).insert ⟨none, 20⟩).1.last_id
        = (Coll.mk [(1, ⟨some 1, (10 : Nat)⟩)] [] []).last_id + 1 ∧
     (((Coll.mk [(1, ⟨some 1, (10 : Nat)⟩)] [] []).insert
          ⟨none, 20⟩).1.insert ⟨none, 30⟩).2
        = .ok ((Coll.mk [(1, ⟨some 1, (10 : Nat)⟩)] [] []).last_id + 2)) :=
  ⟨by decide, insert_id_monotone _ ⟨none, 20⟩ ⟨none, 30⟩ (by decide)⟩

/-! ### Claim C4 -/

/-- C4: the claim states that drop_index on an existing path removes the
index from the list, returns true, and commits a write transaction marking
the removed index storage for physical deletion.  Removal and the true
result are real, and the mark is written into the transaction draft, but
the source returns without calling txn.commit(), so the transaction aborts
and the visible marked set is unchanged: the commit the claim (and spec
section 4.4 step 3) requires never happens. -/
theorem drop_index_txn_aborted :
    ((Coll.mk ([] : List (Primary × RawDocument Nat))
        [⟨"a", .Unique, .Int, []⟩] []).drop_index_run "a").2.1 = true ∧
    ((Coll.mk ([] : List (Primary × RawDocument Nat))
        [⟨"a", .Unique, .Int, []⟩] []).drop_index_run "a").1.indexes = [] ∧
    ((Coll.mk ([] : List (Primary × RawDocument Nat))
        [⟨"a", .Unique, .Int, []⟩] []).drop_index_run "a").1.marked = [] ∧
    ((Coll.mk ([] : List (Primary × RawDocument Nat))
        [⟨"a", .Unique, .Int, []⟩] []).drop_index_run "a").2.2
      = some ⟨⟨[], [], [⟨"a", .Unique, .Int, []⟩]⟩, false⟩ := by
  refine ⟨?_, ?_, ?_, ?_⟩ <;> decide

/-! ### Claim C5 -/

/-- C5: find(None, Primary(Asc)) yields the collection ids in strictly
increasing order and find(None, Primary(Desc)) in strictly decreasing
order; for a filter whose selection is non-inverted, the selection ids are
returned sorted ascending (by a.cmp(b)) for Asc and descending (by
b.cmp(a)) for Desc — stated as: the produced list is a permutation of the
selection ids sorted by the corresponding order. -/
theorem find_primary_order {V : Type} (c : Coll V) (f : DocFilter V)
    (ids : List Primary) (hwf : c.wf) (hsel : f c = ⟨ids, false⟩) :
    List.Sorted (· < ·) (c.find_primary none .Asc) ∧
    List.Sorted (· > ·) (c.find_primary none .Desc) ∧
    List.Sorted (· ≤ ·) (c.find_primary (some f) .Asc) ∧
    (c.find_primary (some f) .Asc).Perm ids ∧
    List.Sorted (· ≥ ·) (c.find_primary (some f) .Desc) ∧
    (c.find_primary (some f) .Desc).Perm ids := by
  have hAsc : c.find_primary (some f) .Asc
      = List.insertionSort (fun a b => a ≤ b) ids := by
    simp [Coll.find_primary, hsel]
  have hDesc : c.find_primary (some f) .Desc
      = List.insertionSort (fun a b => b ≤ a) ids := by
    simp [Coll.find_primary, hsel]
  refine ⟨hwf, ?_, ?_, ?_, ?_, ?_⟩
  · exact (List.pairwise_reverse).mpr hwf
  · rw [hAsc]; exact List.sorted_insertionSort _ _
  · rw [hAsc]; exact List.perm_insertionSort _ _
  · rw [hDesc]; exact List.sorted_insertionSort _ _
  · rw [hDesc]; exact List.perm_insertionSort _ _

/-- Concrete collection used by the C5 witness. -/
def c5fix : Coll Nat :=
  ⟨[(1, ⟨some 1, 0⟩), (3, ⟨some 3, 0⟩), (7, ⟨some 7, 0⟩)], [], []⟩

/-- Concrete non-inverted filter used by the C5 witness. -/
def f5fix : DocFilter Nat := fun _ => ⟨[7, 1, 3], false⟩

/-- Witness for the C5 theorem at a concrete input. -/
theorem find_primary_order_witness :
    c5fix.wf ∧ f5fix c5fix = ⟨[7, 1, 3], false⟩ ∧
    (List.Sorted (· < ·) (c5fix.find_primary none .Asc) ∧
     List.Sorted (· > ·) (c5fix.find_primary none .Desc) ∧
     List.Sorted (· ≤ ·) (c5fix.find_primary (some f5fix) .Asc) ∧
     (c5fix.find_primary (some f5fix) .Asc).Perm [7, 1, 3] ∧
     List.Sorted (· ≥ ·) (c5fix.find_primary (some f5fix) .Desc) ∧
     (c5fix.find_primary (some f5fix) .Desc).Perm [7, 1, 3]) :=
  ⟨by decide, rfl, find_primary_order c5fix f5fix [7, 1, 3] (by decide) rfl⟩

/-! ### Claim C6 -/

/-- C6: delete(id) returns false and leaves the collection and every index
unchanged when no document with that id exists (its transaction performs
no writes and is dropped uncommitted, so there is no visible side effect
and no error); when the document exists, delete removes it, updates every
index with (Some(old), None), commits the transaction, and returns
true. -/
theorem delete_spec {V : Type} (c : Coll V) (id : Primary) :
    (mapGet c.primary id = none →
      c.delete id = (c, false) ∧ (c.delete_run id).2.2.committed = false) ∧
    (∀ d, mapGet c.primary id = some d →
      (c.delete id).2 = true ∧
      (c.delete_run id).2.2.committed = true ∧
      mapGet (c.delete id).1.primary id = none ∧
      (c.delete id).1.primary = mapDel c.primary id ∧
      (c.delete id).1.indexes
        = c.indexes.map (fun i => i.update_index (some (d.with_id id)) none)) := by
  constructor
  · intro h
    constructor
    · show ((c.delete_run id).1, (c.delete_run id).2.1) = (c, false)
      simp [Coll.delete_run, h, WriteTxn.new, WriteTxn.close]
    · simp [Coll.delete_run, h, WriteTxn.new]
  · intro d hd
    refine ⟨?_, ?_, ?_, ?_, ?_⟩ <;>
      simp [Coll.delete, Coll.delete_run, hd, WriteTxn.new, WriteTxn.commit,
        WriteTxn.close, mapGet_mapDel_self]

/-- Concrete collection used by the C6 witness. -/
def c6fix : Coll Nat :=
  ⟨[(1, ⟨some 1, 10⟩)], [⟨"a", .NonUnique, .Int, [(1, ⟨some 1, 10⟩)]⟩], []⟩

/-- Witness for the C6 theorem at a concrete input: both the absent and
the present branch are exercised. -/
theorem delete_spec_witness :
    (mapGet c6fix.primary 2 = none ∧
      (c6fix.delete 2 = (c6fix, false) ∧
       (c6fix.delete_run 2).2.2.committed = false)) ∧
    (mapGet c6fix.primary 1 = some ⟨some 1, 10⟩ ∧
      ((c6fix.delete 1).2 = true ∧
       (c6fix.delete_run 1).2.2.committed = true ∧
       mapGet (c6fix.delete 1).1.primary 1 = none ∧
       (c6fix.delete 1).1.primary = mapDel c6fix.primary 1 ∧
       (c6fix.delete 1).1.indexes = c6fix.indexes.map
         (fun i => i.update_index (some (RawDocument.with_id ⟨some 1, 10⟩ 1)) none))) :=
  ⟨⟨by decide, (delete_spec c6fix 2).1 (by decide)⟩,
   ⟨by decide, (delete_spec c6fix 1).2 ⟨some 1, 10⟩ (by decide)⟩⟩

/-! ### Claim C9 -/

/-- C9: put fails with MissingIdentifier exactly when the document carries
no Primary, and then the collection is unchanged (req_id is checked before
the write transaction is even opened); with a Primary present, put writes
the document at that id, updates every index with the pair (old document
if any, new document), and commits the transaction. -/
theorem put_spec {V : Type} (c : Coll V) (doc : RawDocument V) :
    ((c.put doc).2 = .error .MissingIdentifier ↔ doc.id = none) ∧
    (doc.id = none → (c.put doc).1 = c) ∧
    (∀ id, doc.id = some id →
      (c.put doc).2 = .ok () ∧
      ((c.put_raw_run doc).2.2.map WriteTxn.committed) = some true ∧
      mapGet (c.put doc).1.primary id = some doc ∧
      (c.put doc).1.primary = mapPut c.primary id doc ∧
      (c.put doc).1.indexes = c.indexes.map
        (fun i => i.update_index ((mapGet c.primary id).map
          (fun d => d.with_id id)) (some doc))) := by
  refine ⟨⟨?_, ?_⟩, ?_, ?_⟩
  · intro h
    cases hid : doc.id with
    | none => rfl
    | some id =>
      simp [Coll.put, Coll.put_raw, Coll.put_raw_run, hid, WriteTxn.new,
        WriteTxn.commit, WriteTxn.close] at h
  · intro h
    simp [Coll.put, Coll.put_raw, Coll.put_raw_run, h]
  · intro h
    simp [Coll.put, Coll.put_raw, Coll.put_raw_run, h]
  · intro id hid
    refine ⟨?_, ?_, ?_, ?_, ?_⟩ <;>
      simp [Coll.put, Coll.put_raw, Coll.put_raw_run, hid, WriteTxn.new,
        WriteTxn.commit, WriteTxn.close, mapGet_mapPut_self]

/-- Concrete collection used by the C9 witness. -/
def c9fix : Coll Nat :=
  ⟨[(1, ⟨some 1, 10⟩)], [⟨"a", .NonUnique, .Int, [(1, ⟨some 1, 10⟩)]⟩], []⟩

/-- Witness for the C9 theorem at a concrete input, exercising the
missing-id branch (via the iff) and the present-id branch. -/
theorem put_spec_witness :
    ((c9fix.put ⟨none, 5⟩).2 = .error .MissingIdentifier ↔
      (RawDocument.mk none (5 : Nat)).id = none) ∧
    ((RawDocument.mk (some 1) (99 : Nat)).id = some 1 ∧
     ((c9fix.put ⟨some 1, 99⟩).2 = .ok () ∧
      ((c9fix.put_raw_run ⟨some 1, 99⟩).2.2.map WriteTxn.committed) = some true ∧
      mapGet (c9fix.put ⟨some 1, 99⟩).1.primary 1 = some ⟨some 1, 99⟩ ∧
      (c9fix.put ⟨some 1, 99⟩).1.primary = mapPut c9fix.primary 1 ⟨some 1, 99⟩ ∧
      (c9fix.put ⟨some 1, 99⟩).1.indexes = c9fix.indexes.map
        (fun i => i.update_index ((mapGet c9fix.primary 1).map
          (fun d => d.with_id 1)) (some ⟨some 1, 99⟩)))) :=
  ⟨(put_spec c9fix ⟨none, 5⟩).1,
   ⟨by decide, (put_spec c9fix ⟨some 1, 99⟩).2.2 1 (by decide)⟩⟩

/-! ### Helper lemmas for index management -/

theorem removeByPath_find {V : Type} (p : String) :
    ∀ (l : List (Index V)) (i : Index V),
      l.find? (fun j => j.path = p) = some i →
      ∃ rest, removeByPath l p = some (i, rest) ∧
        (∀ j ∈ rest, j ∈ l) ∧
        (l.Pairwise (fun a b => a.path ≠ b.path) → ∀ j ∈ rest, j.path ≠ p)
  | [], i, h => by simp at h
  | i0 :: tl, i, h => by
    by_cases h0 : i0.path = p
    · have hfind : (i0 :: tl).find? (fun j => decide (j.path = p)) = some i0 :=
        List.find?_cons_of_pos tl (by simp [h0])
      rw [hfind] at h
      obtain rfl : i0 = i := Option.some.inj h
      refine ⟨tl, by simp [removeByPath, h0], fun j hj => List.mem_cons_of_mem _ hj, ?_⟩
      intro hpw j hj hjp
      exact (List.pairwise_cons.mp hpw).1 j hj (h0.trans hjp.symm)
    · have hfind : (i0 :: tl).find? (fun j => decide (j.path = p))
          = tl.find? (fun j => decide (j.path = p)) :=
        List.find?_cons_of_neg tl (by simp [h0])
      rw [hfind] at h
      obtain ⟨rest, hrem, hsub, hpure⟩ := removeByPath_find p tl i h
      refine ⟨i0 :: rest, by simp [removeByPath, h0, hrem], ?_, ?_⟩
      · intro j hj
        rcases List.mem_cons.mp hj with hj | hj
        · exact hj ▸ List.mem_cons_self i0 tl
        · exact List.mem_cons_of_mem _ (hsub j hj)
      · intro hpw j hj
        rcases List.mem_cons.mp hj with hj | hj
        · exact hj ▸ h0
        · exact hpure (List.pairwise_cons.mp hpw).2 j hj

theorem mem_removeByPath_of_ne {V : Type} (p : String) :
    ∀ (l : List (Index V)) (i : Index V) (rest : List (Index V)) (j : Index V),
      removeByPath l p = some (i, rest) → j ∈ l → j.path ≠ p → j ∈ rest
  | [], i, rest, j, h, _, _ => by simp [removeByPath] at h
  | i0 :: tl, i, rest, j, h, hj, hjp => by
    by_cases h0 : i0.path = p
    · simp only [removeByPath, if_pos h0] at h
      obtain ⟨rfl, rfl⟩ : i0 = i ∧ tl = rest := by
        have := Option.some.inj h
        exact ⟨congrArg Prod.fst this, congrArg Prod.snd this⟩
      rcases List.mem_cons.mp hj with hj | hj
      · exact absurd (hj ▸ h0 : j.path = p) hjp
      · exact hj
    · simp only [removeByPath, if_neg h0] at h
      cases hrem : removeByPath tl p with
      | none => rw [hrem] at h; simp at h
      | some pr =>
        rw [hrem] at h
        rw [Option.map_some'] at h
        obtain ⟨rfl, hrest⟩ : pr.1 = i ∧ i0 :: pr.2 = rest := by
          have := Option.some.inj h
          exact ⟨congrArg Prod.fst this, congrArg Prod.snd this⟩
        rcases List.mem_cons.mp hj with hj | hj
        · exact hrest ▸ (hj ▸ List.mem_cons_self i0 pr.2)
        · exact hrest ▸ List.mem_cons_of_mem _
            (mem_removeByPath_of_ne p tl pr.1 pr.2 j (by rw [hrem]) hj hjp)

theorem create_index_preserves {V : Type} (c : Coll V) (p : String)
    (kind : IndexKind) (key : KeyType) (j : Index V) (hj : j ∈ c.indexes) :
    j ∈ (c.create_index p kind key).1.indexes := by
  unfold Coll.create_index
  by_cases h : (c.indexes.any fun i => i.path = p) = true
  · rw [if_pos h]
    exact hj
  · rw [if_neg h]
    exact List.mem_append_left _ hj

theorem ensure_index_preserves {V : Type} (c : Coll V) (p : String)
    (kind : IndexKind) (key : KeyType) (j : Index V)
    (hj : j ∈ c.indexes) (hne : j.path ≠ p) :
    j ∈ (c.ensure_index p kind key).1.indexes := by
  unfold Coll.ensure_index
  cases hg : c.get_index p with
  | none =>
    simp only []
    exact create_index_preserves c p kind key j hj
  | some i =>
    by_cases hmk : i.kind = kind ∧ i.key = key
    · simp only [if_pos hmk]
      exact hj
    · simp only [if_neg hmk]
      obtain ⟨rest, hrem, _, _⟩ := removeByPath_find p c.indexes i hg
      have hdrop : (c.drop_index p).1 = { c with indexes := rest } := by
        simp [Coll.drop_index, Coll.drop_index_run, hrem, WriteTxn.new, WriteTxn.close]
      have hjrest : j ∈ rest := mem_removeByPath_of_ne p c.indexes i rest j hrem hj hne
      have hres := create_index_preserves { c with indexes := rest } p kind key j hjrest
      rw [hdrop]
      exact hres

/-! ### Claim C8 -/

/-- C8: set_indexes calls ensure_index for each input field (this is its
definition), and never drops a pre-existing index whose path is not
mentioned in the input: such an index is still present, unchanged, in the
index list afterwards — despite the docstring saying the method overrides
the collection indexes. -/
theorem set_indexes_keeps_unlisted {V : Type} (c : Coll V)
    (fields : List KeyField) (j : Index V)
    (hj : j ∈ c.indexes) (hne : ∀ f ∈ fields, f.path ≠ j.path) :
    j ∈ (c.set_indexes fields).indexes := by
  induction fields generalizing c with
  | nil => exact hj
  | cons f tl ih =>
    have h1 : j ∈ ((c.ensure_index f.path f.kind f.key).1).indexes :=
      ensure_index_preserves c f.path f.kind f.key j hj
        (fun hp => (hne f (by simp)) hp.symm)
    exact ih _ h1 (fun g hg => hne g (by simp [hg]))

/-- Concrete collection used by the C8 witness. -/
def c8fix : Coll Nat := ⟨[], [⟨"a", .Unique, .Int, []⟩], []⟩

/-- Witness for the C8 theorem at a concrete input: ensuring an index on
path b leaves the pre-existing index on path a in place. -/
theorem set_indexes_keeps_unlisted_witness :
    (⟨"a", .Unique, .Int, []⟩ : Index Nat) ∈ c8fix.indexes ∧
    (∀ f ∈ [KeyField.mk "b" .NonUnique .String],
      f.path ≠ (Index.mk "a" .Unique .Int ([] : List (Primary × RawDocument Nat))).path) ∧
    (⟨"a", .Unique, .Int, []⟩ : Index Nat)
      ∈ (c8fix.set_indexes [⟨"b", .NonUnique, .String⟩]).indexes :=
  ⟨by decide, by decide,
   set_indexes_keeps_unlisted c8fix [⟨"b", .NonUnique, .String⟩] _ (by decide) (by decide)⟩

/-! ### Claim C7 -/

theorem backfill_eq {V : Type} :
    ∀ (m : List (Primary × RawDocument V)) (i : Index V),
      backfill i m
        = { i with entries := i.entries ++ m.map (fun e => (e.1, e.2.with_id e.1)) }
  | [], i => by simp [backfill]
  | e :: rest, i => by
    have ih := backfill_eq rest (i.update_index none (some (e.2.with_id e.1)))
    have hstep : backfill i (e :: rest)
        = backfill (i.update_index none (some (e.2.with_id e.1))) rest := rfl
    rw [hstep, ih]
    simp [Index.update_index, RawDocument.with_id]

/-- C7: ensure_index is a no-op returning false when an index for the path
exists with the same kind and key; when the existing index differs in kind
or key it is dropped and a fresh index, backfilled from every document in
the collection, is appended and true is returned; when no index for the
path exists, create_index builds the backfilled index directly; and
create_index on an already-indexed path returns false and creates
nothing. -/
theorem ensure_create_index_spec {V : Type} (c : Coll V) (path : String)
    (kind : IndexKind) (key : KeyType) :
    (∀ i, c.get_index path = some i → i.kind = kind → i.key = key →
      c.ensure_index path kind key = (c, false)) ∧
    (∀ i, c.indexes.Pairwise (fun a b => a.path ≠ b.path) →
      c.get_index path = some i → ¬(i.kind = kind ∧ i.key = key) →
      ∃ rest, removeByPath c.indexes path = some (i, rest) ∧
        c.ensure_index path kind key
          = ({ c with indexes := rest ++
              [⟨path, kind, key, c.primary.map (fun e => (e.1, e.2.with_id e.1))⟩] }, true)) ∧
    (c.get_index path = none →
      c.create_index path kind key
        = ({ c with indexes := c.indexes ++
            [⟨path, kind, key, c.primary.map (fun e => (e.1, e.2.with_id e.1))⟩] }, true) ∧
      c.ensure_index path kind key = c.create_index path kind key) ∧
    (c.has_index path = true → c.create_index path kind key = (c, false)) := by
  refine ⟨?_, ?_, ?_, ?_⟩
  · intro i hg hk hkey
    simp [Coll.ensure_index, hg, hk, hkey]
  · intro i hpw hg hmk
    obtain ⟨rest, hrem, _, hclean⟩ := removeByPath_find path c.indexes i hg
    refine ⟨rest, hrem, ?_⟩
    have hdrop : (c.drop_index path).1 = { c with indexes := rest } := by
      simp [Coll.drop_index, Coll.drop_index_run, hrem, WriteTxn.new, WriteTxn.close]
    have hens : c.ensure_index path kind key
        = ({ c with indexes := rest } : Coll V).create_index path kind key := by
      simp only [Coll.ensure_index, hg, if_neg hmk]
      rw [hdrop]
    have hany : (rest.any fun j => j.path = path) = false := by
      simp only [List.any_eq_false, decide_eq_true_eq]
      exact hclean hpw
    rw [hens]
    unfold Coll.create_index
    rw [if_neg (by simp [hany])]
    rw [backfill_eq]
    simp
  · intro hg
    have hany : (c.indexes.any fun j => j.path = path) = false := by
      simp only [List.any_eq_false, decide_eq_true_eq]
      exact fun j hj => by
        have := List.find?_eq_none.mp hg j hj
        simpa using this
    constructor
    · unfold Coll.create_index
      rw [if_neg (by simp [hany])]
      rw [backfill_eq]
      simp
    · simp [Coll.ensure_index, hg]
  · intro h
    unfold Coll.create_index
    rw [if_pos (by simpa [Coll.has_index] using h)]

/-- Concrete collection used by the C7 witness. -/
def c7fix : Coll Nat := ⟨[(1, ⟨some 1, 10⟩)], [⟨"a", .Unique, .Int, []⟩], []⟩

/-- Witness for the C7 theorem at a concrete input: re-ensuring the index
on path a with a different kind rebuilds it backfilled from the single
stored document. -/
theorem ensure_create_index_spec_witness :
    c7fix.indexes.Pairwise (fun a b => a.path ≠ b.path) ∧
    c7fix.get_index "a" = some ⟨"a", .Unique, .Int, []⟩ ∧
    ¬((Index.mk "a" .Unique .Int ([] : List (Primary × RawDocument Nat))).kind
        = .NonUnique ∧
      (Index.mk "a" .Unique .Int ([] : List (Primary × RawDocument Nat))).key = .Int) ∧
    ∃ rest, removeByPath c7fix.indexes "a"
        = some (⟨"a", .Unique, .Int, []⟩, rest) ∧
      c7fix.ensure_index "a" .NonUnique .Int
        = ({ c7fix with indexes := rest ++
            [⟨"a", .NonUnique, .Int,
              c7fix.primary.map (fun e => (e.1, e.2.with_id e.1))⟩] }, true) :=
  ⟨by decide, by decide, by decide,
   (ensure_create_index_spec c7fix "a" .NonUnique .Int).2.1
     ⟨"a", .Unique, .Int, []⟩ (by decide) (by decide) (by decide)⟩

/-! ### Claim C10 -/

theorem update_loop_ok {V : Type} (modify : V → V) :
    ∀ (l : List Primary) (t : WriteTxn V) (count : Nat),
      List.Sorted (· < ·) (t.draft.primary.map Prod.fst) →
      (∀ id ∈ l, id ∈ t.draft.primary.map Prod.fst) →
      l.Nodup →
      ∃ t2, update_loop modify t count l = .ok (t2, count + l.length) ∧
        t2.draft.primary.map Prod.fst = t.draft.primary.map Prod.fst ∧
        t2.committed = t.committed ∧
        (∀ j, j ∉ l → mapGet t2.draft.primary j = mapGet t.draft.primary j) ∧
        (∀ id ∈ l, ∀ d, mapGet t.draft.primary id = some d →
          mapGet t2.draft.primary id = some ⟨some id, modify d.val⟩)
  | [], t, count, _, _, _ =>
    ⟨t, by simp [update_loop], rfl, rfl, fun j _ => rfl, fun id hid => by simp at hid⟩
  | id :: rest, t, count, hs, hmem, hnd => by
    obtain ⟨d, hd⟩ := mapGet_isSome_of_mem (hmem id (by simp))
    obtain ⟨hid_rest, hnd_rest⟩ := List.nodup_cons.mp hnd
    set newd : RawDocument V := ⟨some id, modify (d.with_id id).val⟩ with hnewd
    set t1 : WriteTxn V :=
      { t with draft := { t.draft with
          primary := mapPut t.draft.primary id newd,
          indexes := t.draft.indexes.map
            (fun i => i.update_index (some (d.with_id id)) (some newd)) } } with ht1
    have hstep : update_loop modify t count (id :: rest)
        = update_loop modify t1 (count + 1) rest := by
      simp [update_loop, hd, hnewd, ht1]
    have hkeys1 : t1.draft.primary.map Prod.fst = t.draft.primary.map Prod.fst :=
      map_fst_mapPut_of_mem newd hs (hmem id (by simp))
    have hs1 : List.Sorted (· < ·) (t1.draft.primary.map Prod.fst) := by
      rw [hkeys1]; exact hs
    have hmem1 : ∀ i ∈ rest, i ∈ t1.draft.primary.map Prod.fst := by
      intro i hi
      rw [hkeys1]
      exact hmem i (by simp [hi])
    obtain ⟨t2, hloop, hkeys2, hcomm2, hframe2, hval2⟩ :=
      update_loop_ok modify rest t1 (count + 1) hs1 hmem1 hnd_rest
    refine ⟨t2, ?_, ?_, ?_, ?_, ?_⟩
    · rw [hstep, hloop]
      have : count + 1 + rest.length = count + (id :: rest).length := by
        simp [List.length_cons]
        omega
      rw [this]
    · rw [hkeys2, hkeys1]
    · exact hcomm2
    · intro j hj
      have hj1 : j ∉ rest := fun hh => hj (by simp [hh])
      have hjne : j ≠ id := fun hh => hj (by simp [hh])
      rw [hframe2 j hj1]
      show mapGet (mapPut t.draft.primary id newd) j = mapGet t.draft.primary j
      exact mapGet_mapPut_ne t.draft.primary newd hjne
    · intro id0 hid0 d0 hd0
      rcases List.mem_cons.mp hid0 with h0 | h0
      · subst h0
        have hdd : d0 = d := by
          have := hd0.symm.trans hd
          exact Option.some.inj this
        rw [hframe2 id0 hid_rest]
        show mapGet (mapPut t.draft.primary id0 newd) id0 = some ⟨some id0, modify d0.val⟩
        rw [mapGet_mapPut_self]
        rw [hdd]
        rfl
      · have hne : id0 ≠ id := fun hh => hid_rest (hh ▸ h0)
        have hget1 : mapGet t1.draft.primary id0 = some d0 := by
          show mapGet (mapPut t.draft.primary id newd) id0 = some d0
          rw [mapGet_mapPut_ne t.draft.primary newd hne]
          exact hd0
        exact hval2 id0 h0 d0 hget1

/-- C10: update never changes a document primary identifier: for every id
captured by find_ids (all present, as in the sequential execution the
snapshot is taken from the same state), the update succeeds, the returned
count equals the number of captured ids, the key set of the primary map is
unchanged, and the document written back at each captured id is the
modified payload re-wrapped with that same id as its Primary. -/
theorem update_keeps_primary_ids {V : Type} (c : Coll V)
    (filter : Option (DocFilter V)) (modify : V → V)
    (hwf : c.wf)
    (hpres : ∀ id ∈ c.find_ids filter, id ∈ c.primary.map Prod.fst)
    (hnd : (c.find_ids filter).Nodup) :
    (c.update filter modify).2 = .ok (c.find_ids filter).length ∧
    (c.update filter modify).1.primary.map Prod.fst = c.primary.map Prod.fst ∧
    (∀ id ∈ c.find_ids filter, ∀ d, mapGet c.primary id = some d →
      mapGet (c.update filter modify).1.primary id = some ⟨some id, modify d.val⟩) := by
  obtain ⟨t2, hloop, hkeys, hcomm, hframe, hval⟩ :=
    update_loop_ok modify (c.find_ids filter) (WriteTxn.new c) 0 hwf hpres hnd
  have hupd : c.update filter modify
      = ((t2.commit).close c, .ok (0 + (c.find_ids filter).length)) := by
    simp only [Coll.update, hloop]
  have hclose : (t2.commit).close c = t2.draft := by
    simp [WriteTxn.commit, WriteTxn.close]
  rw [hupd, hclose]
  refine ⟨by simp, hkeys, ?_⟩
  intro id hid d hd
  exact hval id hid d hd

/-- Concrete collection used by the C10 witness. -/
def c10fix : Coll Nat := ⟨[(1, ⟨some 1, 10⟩), (2, ⟨some 2, 20⟩)], [], []⟩

/-- Witness for the C10 theorem at a concrete input. -/
theorem update_keeps_primary_ids_witness :
    c10fix.wf ∧
    (∀ id ∈ c10fix.find_ids none, id ∈ c10fix.primary.map Prod.fst) ∧
    (c10fix.find_ids none).Nodup ∧
    ((c10fix.update none (fun v => v + 1)).2 = .ok (c10fix.find_ids none).length ∧
     (c10fix.update none (fun v => v + 1)).1.primary.map Prod.fst
        = c10fix.primary.map Prod.fst ∧
     (∀ id ∈ c10fix.find_ids none, ∀ d, mapGet c10fix.primary id = some d →
        mapGet (c10fix.update none (fun v => v + 1)).1.primary id
          = some ⟨some id, d.val + 1⟩)) :=
  ⟨by decide, by decide, by decide,
   update_keeps_primary_ids c10fix none (fun v => v + 1)
     (by decide) (by decide) (by decide)⟩

end Ledb
